/-
Verification of the LELU URL-extraction utility (Go, package main).

The development shallowly embeds the functions of src/main.go and
src/unnamed/part_000 as executable Lean definitions.  The Go standard
library routines the program relies on (net/url parsing, hostname
extraction, serialization; the regexp scan; buffered file writing) are
modelled faithfully from their stdlib implementations at the level of
character lists.  Machine strings are modelled as Lean String / List Char;
process-killing calls (log.Fatalln) are modelled by an Option result where
none denotes process termination.
-/
import Mathlib

set_option maxRecDepth 10000

/-! ## Deduplication: removeDuplicatesFromSlice (src/main.go lines 93-103) -/

/-- Loop body of removeDuplicatesFromSlice.  The Go map check of seen
strings is modelled by a list with membership tests; newReturnSlice grows
in input order. -/
def removeDuplicatesFromSliceAux (check : List String) : List String → List String
  | [] => []
  | content :: rest =>
    if check.contains content then
      removeDuplicatesFromSliceAux check rest
    else
      content :: removeDuplicatesFromSliceAux (content :: check) rest

/-- Model of removeDuplicatesFromSlice from src/main.go: iterate over the
slice, keeping a string when it has not been seen before. -/
def removeDuplicatesFromSlice (slice : List String) : List String :=
  removeDuplicatesFromSliceAux [] slice

/-- Specification-side definition, following the words of the spec: the
subsequence consisting of the first occurrence of each distinct string, in
the order those first occurrences appear (later duplicates of an element
are filtered away). -/
def keepFirsts : List String → List String
  | [] => []
  | x :: rest => x :: keepFirsts (rest.filter (fun y => y ≠ x))
termination_by l => l.length
decreasing_by
  simp only [List.length_cons]
  exact Nat.lt_succ_of_le (List.length_filter_le _ _)

theorem keepFirsts_nil : keepFirsts [] = [] := by
  simp [keepFirsts]

theorem keepFirsts_cons (x : String) (rest : List String) :
    keepFirsts (x :: rest) = x :: keepFirsts (rest.filter (fun y => y ≠ x)) := by
  simp [keepFirsts]

theorem removeDuplicatesFromSliceAux_eq_keepFirsts :
    ∀ (l : List String) (check : List String),
      removeDuplicatesFromSliceAux check l
        = keepFirsts (l.filter (fun y => !(check.contains y)))
  | [], check => by simp [removeDuplicatesFromSliceAux, keepFirsts]
  | x :: rest, check => by
    by_cases hx : check.contains x
    · rw [removeDuplicatesFromSliceAux, if_pos hx]
      rw [removeDuplicatesFromSliceAux_eq_keepFirsts rest check]
      rw [List.filter_cons]
      have hmem : x ∈ check := by simpa using hx
      simp [hmem]
    · rw [removeDuplicatesFromSliceAux, if_neg hx]
      rw [removeDuplicatesFromSliceAux_eq_keepFirsts rest (x :: check)]
      rw [List.filter_cons]
      have hx' : (!(check.contains x)) = true := by
        simp only [Bool.not_eq_true']
        exact Bool.not_eq_true _ ▸ (by simpa using hx)
      rw [if_pos hx', keepFirsts_cons, List.filter_filter]
      congr 2
      apply List.filter_congr
      intro y _
      simp only [List.contains_cons, Bool.not_or]
      rcases Decidable.em (y = x) with h | h <;> simp [h]

theorem removeDuplicatesFromSlice_eq_keepFirsts (xs : List String) :
    removeDuplicatesFromSlice xs = keepFirsts xs := by
  rw [removeDuplicatesFromSlice, removeDuplicatesFromSliceAux_eq_keepFirsts]
  congr 1
  simp

theorem keepFirsts_sublist : ∀ xs : List String, (keepFirsts xs).Sublist xs
  | [] => by simp [keepFirsts]
  | x :: rest => by
    rw [keepFirsts_cons]
    exact List.Sublist.cons₂ x
      ((keepFirsts_sublist (rest.filter (fun y => y ≠ x))).trans
        (List.filter_sublist rest))
termination_by xs => xs.length
decreasing_by
  simp only [List.length_cons]
  exact Nat.lt_succ_of_le (List.length_filter_le _ _)

/-- The claim C3 as stated: removeDuplicatesFromSlice returns the
subsequence of first occurrences of distinct strings in first-occurrence
order.  Stated as equality with the specification-side keepFirsts plus the
subsequence property; totality and purity are inherent in the function
being a Lean definition. -/
theorem removeDuplicatesFromSlice_first_occurrences (xs : List String) :
    removeDuplicatesFromSlice xs = keepFirsts xs
      ∧ (removeDuplicatesFromSlice xs).Sublist xs := by
  refine ⟨removeDuplicatesFromSlice_eq_keepFirsts xs, ?_⟩
  rw [removeDuplicatesFromSlice_eq_keepFirsts]
  exact keepFirsts_sublist xs

theorem mem_removeDuplicatesFromSliceAux_not_in_check :
    ∀ (l check : List String) (y : String),
      y ∈ removeDuplicatesFromSliceAux check l → ¬ check.contains y
  | [], _, _ => by simp [removeDuplicatesFromSliceAux]
  | x :: rest, check, y => by
    by_cases hx : check.contains x
    · rw [removeDuplicatesFromSliceAux, if_pos hx]
      exact mem_removeDuplicatesFromSliceAux_not_in_check rest check y
    · rw [removeDuplicatesFromSliceAux, if_neg hx]
      intro hy
      rcases List.mem_cons.mp hy with h | h
      · subst h; exact fun hc => hx hc
      · intro hc
        have := mem_removeDuplicatesFromSliceAux_not_in_check rest (x :: check) y h
        exact this (by simp only [List.contains_cons, hc, Bool.or_true])

theorem nodup_removeDuplicatesFromSliceAux :
    ∀ (l check : List String), (removeDuplicatesFromSliceAux check l).Nodup
  | [], _ => by simp [removeDuplicatesFromSliceAux]
  | x :: rest, check => by
    by_cases hx : check.contains x
    · rw [removeDuplicatesFromSliceAux, if_pos hx]
      exact nodup_removeDuplicatesFromSliceAux rest check
    · rw [removeDuplicatesFromSliceAux, if_neg hx]
      refine List.nodup_cons.mpr ⟨?_, nodup_removeDuplicatesFromSliceAux rest (x :: check)⟩
      intro hmem
      have := mem_removeDuplicatesFromSliceAux_not_in_check rest (x :: check) x hmem
      exact this (by simp [List.contains_cons])

theorem removeDuplicatesFromSliceAux_of_nodup :
    ∀ (l check : List String), l.Nodup → (∀ y ∈ l, ¬ check.contains y) →
      removeDuplicatesFromSliceAux check l = l
  | [], _, _, _ => by simp [removeDuplicatesFromSliceAux]
  | x :: rest, check, hnd, hch => by
    have hx : ¬ check.contains x := hch x (List.mem_cons_self x rest)
    rw [removeDuplicatesFromSliceAux, if_neg hx]
    congr 1
    refine removeDuplicatesFromSliceAux_of_nodup rest (x :: check)
      (List.nodup_cons.mp hnd).2 ?_
    intro y hy
    have hyx : y ≠ x := fun h => (List.nodup_cons.mp hnd).1 (h ▸ hy)
    have hyc : ¬ check.contains y := hch y (List.mem_cons_of_mem x hy)
    simp only [List.contains_cons, Bool.or_eq_true, not_or]
    constructor
    · simpa [beq_iff_eq] using hyx
    · exact fun hc => hyc hc

/-- The claim C4 as stated: deduplication is idempotent. -/
theorem removeDuplicatesFromSlice_idempotent (xs : List String) :
    removeDuplicatesFromSlice (removeDuplicatesFromSlice xs)
      = removeDuplicatesFromSlice xs := by
  apply removeDuplicatesFromSliceAux_of_nodup
  · exact nodup_removeDuplicatesFromSliceAux xs []
  · intro y _; simp

/-! ## URL extraction regex (src/main.go line 22): http[s]?://[^\s"]+ -/

/-- Double-quote character (written by code point to keep literals plain). -/
def quoteChar : Char := Char.ofNat 34

/-- Whitespace class of the Go regexp \s: tab, newline, form feed,
carriage return and space. -/
def isGoSpace (c : Char) : Bool :=
  c == ' ' || c == Char.ofNat 9 || c == Char.ofNat 10 ||
    c == Char.ofNat 12 || c == Char.ofNat 13

/-- Character class [^\s"] of the extraction regex. -/
def isURLChar (c : Char) : Bool := !(isGoSpace c) && c != quoteChar

def httpPre : List Char := "http://".data

def httpsPre : List Char := "https://".data

/-- Attempt of the pattern http[s]?://[^\s"]+ at the head of s, with the
greedy optional s and greedy plus of the Go regexp: on success, the
maximal match starting here. -/
def matchFrom (s : List Char) : Option (List Char) :=
  if httpsPre.isPrefixOf s then
    let run := (s.drop 8).takeWhile isURLChar
    if run.isEmpty then none else some (httpsPre ++ run)
  else if httpPre.isPrefixOf s then
    let run := (s.drop 7).takeWhile isURLChar
    if run.isEmpty then none else some (httpPre ++ run)
  else none

/-- Scan for all non-overlapping leftmost matches, resuming after each
match, as regexp FindAllString does.  The fuel argument (initialized to
the length of the line) bounds the number of scan steps; every step
consumes at least one character, so the initial fuel is always enough. -/
def findAllURLsAux : Nat → List Char → List (List Char)
  | 0, _ => []
  | _ + 1, [] => []
  | fuel + 1, c :: rest =>
    match matchFrom (c :: rest) with
    | some m => m :: findAllURLsAux fuel ((c :: rest).drop m.length)
    | none => findAllURLsAux fuel rest

/-- All matches of the extraction regex in one line. -/
def findAllURLs (s : List Char) : List (List Char) := findAllURLsAux s.length s

/-- The claim C5 as stated: on the literal spec line the regex yields
exactly three candidates, in order; the double quote terminates the second
match region but the third URL still matches from https:// onward. -/
theorem extraction_three_candidates :
    findAllURLs ("see https://www.documentcloud.org/docs/123.pdf and https://evil.example.com/x \"https://s3.documentcloud.org/y").data
      = ["https://www.documentcloud.org/docs/123.pdf".data,
         "https://evil.example.com/x".data,
         "https://s3.documentcloud.org/y".data] := by
  decide

/-! ## Model of the Go standard library net/url, at the level of
character lists.  Each definition mirrors the corresponding stdlib
function (parse, getScheme, parseAuthority, parseHost, unescape, escape,
setPath, Hostname, String).  Go iterates over bytes; the model iterates
over characters, which agrees on ASCII input. -/

inductive Encoding
  | path
  | host
  | zone
  | userPassword
  | fragment
deriving DecidableEq, Repr, BEq

/-- Apostrophe character, written by code point. -/
def aposChar : Char := Char.ofNat 39

def isAlphaNumGo (c : Char) : Bool :=
  ('a' ≤ c && c ≤ 'z') || ('A' ≤ c && c ≤ 'Z') || ('0' ≤ c && c ≤ '9')

def isDigitGo (c : Char) : Bool := '0' ≤ c && c ≤ '9'

/-- Characters the host/zone modes of shouldEscape always allow. -/
def isHostSpecial (c : Char) : Bool :=
  c == '!' || c == '$' || c == '&' || c == aposChar || c == '(' || c == ')' ||
  c == '*' || c == '+' || c == ',' || c == ';' || c == '=' || c == ':' ||
  c == '[' || c == ']' || c == '<' || c == '>' || c == quoteChar

/-- Reserved characters of RFC 3986 as listed in shouldEscape. -/
def isReservedGo (c : Char) : Bool :=
  c == '$' || c == '&' || c == '+' || c == ',' || c == '/' || c == ':' ||
  c == ';' || c == '=' || c == '?' || c == '@'

/-- Model of net/url shouldEscape. -/
def shouldEscape (c : Char) (mode : Encoding) : Bool :=
  if isAlphaNumGo c then false
  else if (mode == Encoding.host || mode == Encoding.zone) && isHostSpecial c then false
  else if c == '-' || c == '_' || c == '.' || c == '~' then false
  else if isReservedGo c then
    match mode with
    | Encoding.path => c == '?'
    | Encoding.userPassword => c == '@' || c == '/' || c == '?' || c == ':'
    | Encoding.fragment => false
    | _ => true
  else if mode == Encoding.fragment && (c == '!' || c == '(' || c == ')' || c == '*') then
    false
  else true

def ishexGo (c : Char) : Bool :=
  ('0' ≤ c && c ≤ '9') || ('a' ≤ c && c ≤ 'f') || ('A' ≤ c && c ≤ 'F')

def unhexGo (c : Char) : Nat :=
  if '0' ≤ c && c ≤ '9' then c.toNat - '0'.toNat
  else if 'a' ≤ c && c ≤ 'f' then c.toNat - 'a'.toNat + 10
  else if 'A' ≤ c && c ≤ 'F' then c.toNat - 'A'.toNat + 10
  else 0

/-- Model of net/url unescape: percent-decoding with per-mode validity
checks.  In host and zone modes some raw characters and most ASCII escapes
are rejected; failures anywhere make the whole call fail. -/
def unescapeGo : List Char → Encoding → Option (List Char)
  | [], _ => some []
  | c :: rest, mode =>
    if c = '%' then
      match rest with
      | h1 :: h2 :: rest2 =>
        if ishexGo h1 && ishexGo h2 then
          if mode == Encoding.host && unhexGo h1 < 8 && !(h1 == '2' && h2 == '5') then
            none
          else if mode == Encoding.zone && !(h1 == '2' && h2 == '5') &&
              unhexGo h1 * 16 + unhexGo h2 != 32 &&
              shouldEscape (Char.ofNat (unhexGo h1 * 16 + unhexGo h2)) Encoding.host then
            none
          else
            (unescapeGo rest2 mode).map (Char.ofNat (unhexGo h1 * 16 + unhexGo h2) :: ·)
        else none
      | _ => none
    else
      if (mode == Encoding.host || mode == Encoding.zone) && c.toNat < 128 &&
          shouldEscape c mode then
        none
      else (unescapeGo rest mode).map (c :: ·)

def hexUpperDigit (n : Nat) : Char := "0123456789ABCDEF".data.getD n '0'

/-- Model of net/url escape (percent-encoding of the bytes that
shouldEscape flags). -/
def escapeGo (s : List Char) (mode : Encoding) : List Char :=
  s.flatMap (fun c =>
    if shouldEscape c mode then
      ['%', hexUpperDigit (c.toNat / 16 % 16), hexUpperDigit (c.toNat % 16)]
    else [c])

/-- Model of net/url validEncoded. -/
def validEncodedChar (c : Char) (mode : Encoding) : Bool :=
  c == '!' || c == '$' || c == '&' || c == aposChar || c == '(' || c == ')' ||
  c == '*' || c == '+' || c == ',' || c == ';' || c == '=' || c == ':' ||
  c == '@' || c == '[' || c == ']' || c == '%' || !(shouldEscape c mode)

def validEncoded (s : List Char) (mode : Encoding) : Bool :=
  s.all (validEncodedChar · mode)

/-- Model of net/url validOptionalPort: empty, or a colon followed by any
number of digits. -/
def validOptionalPort : List Char → Bool
  | [] => true
  | c :: rest => c == ':' && rest.all isDigitGo

/-- Index of the last occurrence of a character. -/
def lastIdxOf (c : Char) : List Char → Option Nat
  | [] => none
  | x :: rest =>
    match lastIdxOf c rest with
    | some i => some (i + 1)
    | none => if x == c then some 0 else none

/-- Index of the first occurrence of the literal %25. -/
def idxOfPct25 : List Char → Option Nat
  | '%' :: '2' :: '5' :: _ => some 0
  | _ :: rest => (idxOfPct25 rest).map (· + 1)
  | [] => none

/-- Model of net/url splitHostPort: strip a valid numeric port, then strip
surrounding square brackets. -/
def splitHostPort (hostPort : List Char) : List Char × List Char :=
  let hp :=
    match lastIdxOf ':' hostPort with
    | some colon =>
      if validOptionalPort (hostPort.drop colon) then
        (hostPort.take colon, hostPort.drop colon)
      else (hostPort, ([] : List Char))
    | none => (hostPort, ([] : List Char))
  if hp.1.head? == some '[' && hp.1.getLast? == some ']' then
    ((hp.1.drop 1).dropLast, hp.2)
  else hp

/-- Model of net/url parseHost. -/
def parseHost (host : List Char) : Option (List Char) :=
  if host.head? == some '[' then
    match lastIdxOf ']' host with
    | none => none
    | some i =>
      if !validOptionalPort (host.drop (i + 1)) then none
      else
        match idxOfPct25 (host.take i) with
        | some zone =>
          match unescapeGo (host.take zone) Encoding.host,
                unescapeGo ((host.take i).drop zone) Encoding.zone,
                unescapeGo (host.drop i) Encoding.host with
          | some h1, some h2, some h3 => some (h1 ++ h2 ++ h3)
          | _, _, _ => none
        | none => unescapeGo host Encoding.host
  else
    match lastIdxOf ':' host with
    | some i =>
      if !validOptionalPort (host.drop i) then none
      else unescapeGo host Encoding.host
    | none => unescapeGo host Encoding.host

structure Userinfo where
  username : List Char
  password : List Char
  passwordSet : Bool
deriving DecidableEq, Repr

/-- Model of net/url validUserinfo. -/
def validUserinfoChar (c : Char) : Bool :=
  isAlphaNumGo c || c == '-' || c == '.' || c == '_' || c == ':' || c == '~' ||
  c == '!' || c == '$' || c == '&' || c == aposChar || c == '(' || c == ')' ||
  c == '*' || c == '+' || c == ',' || c == ';' || c == '=' || c == '%' || c == '@'

def validUserinfo (s : List Char) : Bool := s.all validUserinfoChar

/-- Split at the first occurrence of c: the part before, and the part
after (empty when c does not occur), as strings.Cut does. -/
def cutAt (c : Char) (s : List Char) : List Char × List Char :=
  (s.takeWhile (· != c), (s.dropWhile (· != c)).drop 1)

/-- Model of net/url parseAuthority: split userinfo at the last at-sign,
parse the host, validate and decode the userinfo. -/
def parseAuthority (authority : List Char) : Option (Option Userinfo × List Char) :=
  match lastIdxOf '@' authority with
  | none =>
    match parseHost authority with
    | none => none
    | some h => some (none, h)
  | some i =>
    match parseHost (authority.drop (i + 1)) with
    | none => none
    | some host =>
      if !validUserinfo (authority.take i) then none
      else if !(authority.take i).contains ':' then
        match unescapeGo (authority.take i) Encoding.userPassword with
        | none => none
        | some un => some (some ⟨un, [], false⟩, host)
      else
        match unescapeGo (cutAt ':' (authority.take i)).1 Encoding.userPassword,
              unescapeGo (cutAt ':' (authority.take i)).2 Encoding.userPassword with
        | some un, some pw => some (some ⟨un, pw, true⟩, host)
        | _, _ => none

/-- Model of the net/url URL struct.  The field opq models the Go field
named Opaque (that identifier is avoided in this development); rawPath and
rawFragment use the empty list as the unset sentinel exactly as Go uses
the empty string. -/
structure GoURL where
  scheme : List Char := []
  opq : List Char := []
  user : Option Userinfo := none
  host : List Char := []
  path : List Char := []
  rawPath : List Char := []
  omitHost : Bool := false
  forceQuery : Bool := false
  rawQuery : List Char := []
  fragment : List Char := []
  rawFragment : List Char := []
deriving DecidableEq, Repr

/-- Model of URL.Hostname(): the host with any valid numeric port and any
surrounding brackets removed. -/
def GoURL.hostname (u : GoURL) : List Char := (splitHostPort u.host).1

inductive SchemeRes
  | err
  | noScheme
  | found (scheme rest : List Char)
deriving DecidableEq, Repr

def isSchemeLetter (c : Char) : Bool := ('a' ≤ c && c ≤ 'z') || ('A' ≤ c && c ≤ 'Z')

/-- Scanner of net/url getScheme: letters continue; digits and +-. may
continue except in first position (then the string has no scheme); a colon
in first position is an error, later it ends the scheme; any other
character means the string has no scheme. -/
def getSchemeAux : List Char → List Char → Bool → SchemeRes
  | [], _, _ => SchemeRes.noScheme
  | c :: rest, acc, isFirst =>
    if isSchemeLetter c then getSchemeAux rest (acc ++ [c]) false
    else if isDigitGo c || c == '+' || c == '-' || c == '.' then
      if isFirst then SchemeRes.noScheme else getSchemeAux rest (acc ++ [c]) false
    else if c == ':' then
      if isFirst then SchemeRes.err else SchemeRes.found acc rest
    else SchemeRes.noScheme

def getScheme (raw : List Char) : SchemeRes := getSchemeAux raw [] true

/-- ASCII lower-casing as strings.ToLower does on ASCII input. -/
def toLowerGo (s : List Char) : List Char :=
  s.map (fun c => if 'A' ≤ c && c ≤ 'Z' then Char.ofNat (c.toNat + 32) else c)

def containsCTL (s : List Char) : Bool :=
  s.any (fun c => c.toNat < 32 || c.toNat == 127)

/-- Model of URL.setPath combined with record construction: decode the raw
path, remember the raw spelling only when it differs from the canonical
escaping of the decoded path. -/
def mkWithPath (scheme : List Char) (user : Option Userinfo) (host : List Char)
    (omitHost forceQuery : Bool) (rawQuery p : List Char) : Option GoURL :=
  match unescapeGo p Encoding.path with
  | none => none
  | some path =>
    some { scheme := scheme, user := user, host := host, path := path,
           rawPath := if escapeGo path Encoding.path == p then [] else p,
           omitHost := omitHost, forceQuery := forceQuery, rawQuery := rawQuery }

def firstSegmentHasColon (rest : List Char) : Bool :=
  (cutAt '/' rest).1.contains ':'

def hasPre2Slash (s : List Char) : Bool := "//".data.isPrefixOf s

def hasPre3Slash (s : List Char) : Bool := "///".data.isPrefixOf s

/-- Continuation of net/url parse after scheme and query extraction:
opaque rootless forms, the error cases of request parsing, authority
extraction and path decoding. -/
def afterQuery (viaRequest : Bool) (scheme : List Char) (forceQuery : Bool)
    (rawQuery rest : List Char) : Option GoURL :=
  if rest.head? != some '/' && scheme != [] then
    some { scheme := scheme, opq := rest, forceQuery := forceQuery, rawQuery := rawQuery }
  else if rest.head? != some '/' && viaRequest then none
  else if rest.head? != some '/' && firstSegmentHasColon rest then none
  else if (scheme != [] || (!viaRequest && !hasPre3Slash rest)) && hasPre2Slash rest then
    match parseAuthority ((rest.drop 2).takeWhile (· != '/')) with
    | none => none
    | some (user, host) =>
      mkWithPath scheme user host false forceQuery rawQuery
        ((rest.drop 2).dropWhile (· != '/'))
  else
    mkWithPath scheme none [] (scheme != [] && rest.head? == some '/')
      forceQuery rawQuery rest

/-- Query split of net/url parse: a single trailing question mark sets
ForceQuery; otherwise the string is cut at the first question mark and the
remainder is stored raw and unvalidated in RawQuery. -/
def parseQueryStage (viaRequest : Bool) (scheme rest0 : List Char) : Option GoURL :=
  if rest0.getLast? == some '?' && !(rest0.dropLast.contains '?') then
    afterQuery viaRequest scheme true [] rest0.dropLast
  else
    afterQuery viaRequest scheme false (cutAt '?' rest0).2 (cutAt '?' rest0).1

/-- Model of net/url parse(rawURL, viaRequest): control-byte check, empty
request check, the literal star form, scheme extraction and lowering, then
the query and authority stages. -/
def parseCore (viaRequest : Bool) (rawURL : List Char) : Option GoURL :=
  if containsCTL rawURL then none
  else if rawURL.isEmpty && viaRequest then none
  else if rawURL == ['*'] then some { path := ['*'] }
  else
    match getScheme rawURL with
    | SchemeRes.err => none
    | SchemeRes.noScheme => parseQueryStage viaRequest [] rawURL
    | SchemeRes.found sch rest => parseQueryStage viaRequest (toLowerGo sch) rest

/-- Model of URL.setFragment. -/
def withFragment (u : GoURL) (frag : List Char) : Option GoURL :=
  match unescapeGo frag Encoding.fragment with
  | none => none
  | some f =>
    some { u with fragment := f,
                  rawFragment := if escapeGo f Encoding.fragment == frag then [] else frag }

/-- Model of url.Parse: cut the fragment at the first hash, parse the rest
with viaRequest false, then decode and validate the fragment. -/
def goParse (rawURL : List Char) : Option GoURL :=
  match parseCore false (cutAt '#' rawURL).1 with
  | none => none
  | some u =>
    if (cutAt '#' rawURL).2.isEmpty then some u
    else withFragment u (cutAt '#' rawURL).2

/-- Model of url.ParseRequestURI. -/
def goParseRequestURI (rawURL : List Char) : Option GoURL := parseCore true rawURL

/-- Model of Userinfo.String. -/
def userinfoString (ui : Userinfo) : List Char :=
  escapeGo ui.username Encoding.userPassword ++
    (if ui.passwordSet then ':' :: escapeGo ui.password Encoding.userPassword else [])

/-- Model of URL.EscapedPath: the remembered raw path when it is a valid
encoding of the decoded path, otherwise the canonical escaping. -/
def GoURL.escapedPath (u : GoURL) : List Char :=
  if u.rawPath != [] && validEncoded u.rawPath Encoding.path &&
      unescapeGo u.rawPath Encoding.path == some u.path then u.rawPath
  else if u.path == ['*'] then ['*']
  else escapeGo u.path Encoding.path

/-- Model of URL.EscapedFragment. -/
def GoURL.escapedFragment (u : GoURL) : List Char :=
  if u.rawFragment != [] && validEncoded u.rawFragment Encoding.fragment &&
      unescapeGo u.rawFragment Encoding.fragment == some u.fragment then u.rawFragment
  else escapeGo u.fragment Encoding.fragment

/-- Query and fragment tail of URL.String. -/
def queryFragSuffix (u : GoURL) : List Char :=
  (if u.forceQuery || u.rawQuery != [] then '?' :: u.rawQuery else []) ++
  (if u.fragment != [] then '#' :: u.escapedFragment else [])

/-- Model of URL.String: scheme, then either the opaque part or the
authority and escaped path (with the same special cases as the stdlib),
then query and fragment. -/
def urlString (u : GoURL) : List Char :=
  let buf0 : List Char := if u.scheme != [] then u.scheme ++ [':'] else []
  if u.opq != [] then buf0 ++ u.opq ++ queryFragSuffix u
  else
    let buf1 :=
      buf0 ++
      (if u.scheme != [] || u.host != [] || u.user.isSome then
        (if u.omitHost && u.host == [] && u.user.isNone then []
         else
           (if u.host != [] || u.path != [] || u.user.isSome then "//".data else []) ++
           (match u.user with
            | some ui => userinfoString ui ++ ['@']
            | none => []) ++
           (if u.host != [] then escapeGo u.host Encoding.host else []))
       else [])
    let path := u.escapedPath
    let buf2 :=
      buf1 ++ (if path != [] && path.head? != some '/' && u.host != [] then ['/'] else [])
    let buf3 : List Char :=
      if buf2.isEmpty && (cutAt '/' path).1.contains ':' then "./".data else []
    buf2 ++ buf3 ++ path ++ queryFragSuffix u

/-! ## Repository functions built on the net/url model
(src/main.go lines 105-148, src/unnamed/part_000 lines 122-180). -/

/-- Allowed hostnames of cleanURLs (src/main.go line 122). -/
def validDomains : List String :=
  ["s3.documentcloud.org", "documentcloud.org",
   "www.documentcloud.org", "beta.documentcloud.org"]

/-- Literal suffix stripped by cleanURLs (src/main.go line 129). -/
def targetBlankSuffix : String := "target=&quot;_blank&quot;"

def targetBlankChars : List Char := targetBlankSuffix.data

/-- Model of isUrlValid: whether url.ParseRequestURI succeeds. -/
def isUrlValid (uri : String) : Bool := (goParseRequestURI uri.data).isSome

/-- Model of getHostNameFromURL: url.Parse then Hostname(); none models
the log.Fatalln branch, which terminates the process. -/
def getHostNameFromURL (uri : String) : Option String :=
  (goParse uri.data).map (fun u => String.mk u.hostname)

/-- Model of strings.TrimSuffix. -/
def trimSuffixGo (s suffix : String) : String :=
  if suffix.data.isSuffixOf s.data then
    String.mk (s.data.take (s.data.length - suffix.data.length))
  else s

/-- Model of cleanURLs from src/main.go: validate, extract the hostname of
the original string, strip the literal trailing suffix, keep the stripped
string when the hostname is allow-listed.  A none result models process
termination inside getHostNameFromURL. -/
def cleanURLs : List String → Option (List String)
  | [] => some []
  | content :: rest =>
    if isUrlValid content then
      match getHostNameFromURL content with
      | none => none
      | some hostName =>
        if validDomains.contains hostName then
          (cleanURLs rest).map (trimSuffixGo content targetBlankSuffix :: ·)
        else cleanURLs rest
    else cleanURLs rest

namespace Part000

/-- Model of cleanURLs from src/unnamed/part_000: identical to the main.go
variant except that no suffix stripping is performed. -/
def cleanURLs : List String → Option (List String)
  | [] => some []
  | content :: rest =>
    if isUrlValid content then
      match getHostNameFromURL content with
      | none => none
      | some hostName =>
        if validDomains.contains hostName then
          (Part000.cleanURLs rest).map (content :: ·)
        else Part000.cleanURLs rest
    else Part000.cleanURLs rest

end Part000

/-- Per-line match loop of extractURLsFromFile (src/main.go lines 32-39):
each regex match is parsed with url.ParseRequestURI; failures are logged
and skipped, successes contribute the re-serialized URL. -/
def processMatches : List (List Char) → List (List Char)
  | [] => []
  | m :: rest =>
    match goParseRequestURI m with
    | none => processMatches rest
    | some u => urlString u :: processMatches rest

/-- Content-level model of extractURLsFromFile: scan each line with the
regex and process the matches in order. -/
def extractURLsFromLines (lines : List String) : List String :=
  lines.flatMap (fun line => (processMatches (findAllURLs line.data)).map String.mk)

/-- Content written by saveURLsToFile (src/main.go lines 73-90): each
string followed by one newline, in order. -/
def saveURLsToFile : List String → String
  | [] => ""
  | u :: rest => u ++ "\n" ++ saveURLsToFile rest

def newlineChar : Char := '\n'

/-- Split on a separator character; n separators yield n+1 parts. -/
def splitOnChar (c : Char) : List Char → List (List Char)
  | [] => [[]]
  | x :: rest =>
    if x == c then [] :: splitOnChar c rest
    else
      match splitOnChar c rest with
      | [] => [[x]]
      | h :: t => (x :: h) :: t

/-- Reader of the output file, following the round-trip wording of the
spec: split the content on newlines and drop the trailing empty segment
left by a final newline. -/
def linesOf (content : String) : List String :=
  let parts := splitOnChar newlineChar content.data
  if parts.getLast? == some [] then (parts.dropLast).map String.mk
  else parts.map String.mk

/-- Observable outcome of one program run: the argument of the single
saveURLsToFile call when it happens, and whether the process exits
normally (log.Fatal counts as a failure exit; a logged save error does
not change the exit status). -/
structure MainOutcome where
  wrote : Option (List String)
  exitOk : Bool
deriving DecidableEq, Repr

/-- Model of main from src/main.go over the results of the filesystem
collaborators: the listTSVFiles result and, per file name, the result of
extracting that file (error or the list of its lines). -/
def mainModel (tsvListing : Except String (List String))
    (readFile : String → Except String (List String)) : MainOutcome :=
  match tsvListing with
  | Except.error _ => ⟨none, false⟩
  | Except.ok tsvFiles =>
    if tsvFiles.isEmpty then ⟨none, true⟩
    else
      let allURLs := tsvFiles.foldl
        (fun acc f =>
          match readFile f with
          | Except.error _ => acc
          | Except.ok lines => acc ++ extractURLsFromLines lines) []
      match cleanURLs (removeDuplicatesFromSlice allURLs) with
      | none => ⟨none, false⟩
      | some cleaned => ⟨some cleaned, true⟩

/-! ## Claim C8: no .tsv files means no write and a normal exit -/

/-- The claim C8 as stated: when file discovery returns an empty list, the
program writes no output file (saveURLsToFile is never invoked) and exits
normally. -/
theorem mainModel_no_tsv_files (readFile : String → Except String (List String)) :
    mainModel (Except.ok []) readFile = ⟨none, true⟩ := rfl

/-! ## Claim C6: per-candidate error handling in extractURLsFromFile -/

/-- The claim C6 as stated: a candidate whose parse fails is discarded and
processing continues with the remaining matches; a candidate whose parse
succeeds contributes the re-serialization of the parsed URL, and that
re-serialization is not always byte-identical to the matched substring. -/
theorem processMatches_error_handling :
    (∀ m rest, goParseRequestURI m = none →
        processMatches (m :: rest) = processMatches rest)
      ∧ (∀ m u rest, goParseRequestURI m = some u →
          processMatches (m :: rest) = urlString u :: processMatches rest)
      ∧ (∃ m u, goParseRequestURI m = some u ∧ urlString u ≠ m) := by
  refine ⟨?_, ?_, ?_⟩
  · intro m rest h
    simp [processMatches, h]
  · intro m u rest h
    simp [processMatches, h]
  · refine ⟨"http://a/<".data,
      { scheme := "http".data, host := ['a'], path := "/<".data,
        rawPath := "/<".data }, ?_, ?_⟩
    · decide
    · decide

/-- Witness for C6: the invalid candidate http://% is skipped and the scan
continues. -/
theorem processMatches_error_handling_witness :
    goParseRequestURI "http://%".data = none ∧
      processMatches ["http://%".data] = processMatches [] :=
  ⟨by decide, processMatches_error_handling.1 "http://%".data [] (by decide)⟩

/-! ## Claim C2: the domain check reads the unstripped string, the output
keeps the stripped string -/

/-- The claim C2 as stated: for a string that passes validation, cleanURLs
evaluates the allow-list check on the hostname of the original unstripped
string, and the element kept on success is the string with the literal
trailing suffix removed. -/
theorem cleanURLs_checks_unstripped_keeps_stripped (s : String) (u : GoURL)
    (hv : isUrlValid s = true) (hp : goParse s.data = some u) :
    cleanURLs [s] =
      some (if validDomains.contains (String.mk u.hostname)
            then [trimSuffixGo s targetBlankSuffix] else []) := by
  have hh : getHostNameFromURL s = some (String.mk u.hostname) := by
    rw [getHostNameFromURL, hp]
    rfl
  simp only [cleanURLs, hv, if_true, hh]
  split <;> rfl

/-- Witness for C2: a URL with an allow-listed host and the literal suffix
is kept in stripped form. -/
theorem cleanURLs_checks_unstripped_keeps_stripped_witness :
    cleanURLs ["https://documentcloud.org/xtarget=&quot;_blank&quot;"]
      = some ["https://documentcloud.org/x"] := by
  have h := cleanURLs_checks_unstripped_keeps_stripped
    "https://documentcloud.org/xtarget=&quot;_blank&quot;"
    { scheme := "https".data, host := "documentcloud.org".data,
      path := "/xtarget=&quot;_blank&quot;".data }
    (by decide) (by decide)
  rw [h]
  decide


/-! ## Claim C9: saveURLsToFile write-then-read round-trip -/

theorem splitOnChar_ne_nil (c : Char) : ∀ ys : List Char, splitOnChar c ys ≠ []
  | [] => by simp [splitOnChar]
  | x :: rest => by
    by_cases hx : (x == c) = true
    · simp [splitOnChar, hx]
    · simp only [splitOnChar, hx, if_false]
      cases h : splitOnChar c rest with
      | nil => exact absurd h (splitOnChar_ne_nil c rest)
      | cons a t => simp

theorem splitOnChar_append_cons (c : Char) :
    ∀ xs ys : List Char, c ∉ xs →
      splitOnChar c (xs ++ c :: ys) = xs :: splitOnChar c ys
  | [], ys, _ => by simp [splitOnChar]
  | x :: xs, ys, h => by
    have hx : (x == c) = false := by
      refine beq_eq_false_iff_ne.mpr (fun e => h ?_)
      rw [e]
      exact List.mem_cons_self c xs
    have hxs : c ∉ xs := fun hc => h (List.mem_cons_of_mem x hc)
    have ih := splitOnChar_append_cons c xs ys hxs
    simp only [List.cons_append, splitOnChar, hx, if_false, List.append_eq]
    rw [ih]
    rfl

theorem getLast_splitOnChar_saveURLsToFile :
    ∀ urls : List String, (∀ u ∈ urls, newlineChar ∉ u.data) →
      (splitOnChar newlineChar (saveURLsToFile urls).data).getLast? = some []
  | [], _ => by simp [saveURLsToFile, splitOnChar]
  | u :: rest, h => by
    have hu : newlineChar ∉ u.data := h u (List.mem_cons_self u rest)
    have hdata : (saveURLsToFile (u :: rest)).data
        = u.data ++ newlineChar :: (saveURLsToFile rest).data := by
      show (u ++ "\n" ++ saveURLsToFile rest).data = _
      rw [String.data_append, String.data_append, List.append_assoc]
      rfl
    rw [hdata, splitOnChar_append_cons newlineChar u.data _ hu]
    have hne := splitOnChar_ne_nil newlineChar (saveURLsToFile rest).data
    have hrest := getLast_splitOnChar_saveURLsToFile rest
      (fun v hv => h v (List.mem_cons_of_mem u hv))
    cases hsp : splitOnChar newlineChar (saveURLsToFile rest).data with
    | nil => exact absurd hsp hne
    | cons a t =>
      rw [List.getLast?_cons_cons]
      rw [hsp] at hrest
      exact hrest

/-- Counterexample for C9: with an input string containing an embedded
newline, reading the written content back does not return the input
sequence, refuting the claim quantified over every sequence of strings. -/
theorem saveURLsToFile_roundtrip_fails_on_newline :
    linesOf (saveURLsToFile ["a\nb"]) = ["a", "b"] ∧
      linesOf (saveURLsToFile ["a\nb"]) ≠ ["a\nb"] := by
  constructor
  · decide
  · decide

/-- The claim C9 amended: for sequences of newline-free strings (the only
strings the pipeline ever writes), the written content is each string
followed by one newline in order, and reading it back yields exactly the
input sequence. -/
theorem saveURLsToFile_roundtrip :
    ∀ urls : List String, (∀ u ∈ urls, newlineChar ∉ u.data) →
      linesOf (saveURLsToFile urls) = urls
  | [], _ => by decide
  | u :: rest, h => by
    have hu : newlineChar ∉ u.data := h u (List.mem_cons_self u rest)
    have hrest : ∀ v ∈ rest, newlineChar ∉ v.data :=
      fun v hv => h v (List.mem_cons_of_mem u hv)
    have hdata : (saveURLsToFile (u :: rest)).data
        = u.data ++ newlineChar :: (saveURLsToFile rest).data := by
      show (u ++ "\n" ++ saveURLsToFile rest).data = _
      rw [String.data_append, String.data_append, List.append_assoc]
      rfl
    have hlast := getLast_splitOnChar_saveURLsToFile rest hrest
    have hne := splitOnChar_ne_nil newlineChar (saveURLsToFile rest).data
    have ih := saveURLsToFile_roundtrip rest hrest
    rw [linesOf] at ih ⊢
    rw [hdata, splitOnChar_append_cons newlineChar u.data _ hu]
    cases hsp : splitOnChar newlineChar (saveURLsToFile rest).data with
    | nil => exact absurd hsp hne
    | cons a t =>
      rw [hsp] at ih hlast
      have hcond : ((a :: t).getLast? == some ([] : List Char)) = true := by
        rw [hlast]
        rfl
      rw [if_pos hcond] at ih
      have hcond2 : ((u.data :: a :: t).getLast? == some ([] : List Char)) = true := by
        rw [List.getLast?_cons_cons, hlast]
        rfl
      rw [if_pos hcond2]
      rw [List.dropLast_cons_of_ne_nil (by simp : (a :: t) ≠ [])]
      rw [List.map_cons, ih]

/-- Witness for the amended C9 round-trip at a concrete sequence. -/
theorem saveURLsToFile_roundtrip_witness :
    linesOf (saveURLsToFile ["https://documentcloud.org/a", "x"])
      = ["https://documentcloud.org/a", "x"] :=
  saveURLsToFile_roundtrip ["https://documentcloud.org/a", "x"] (by decide)

/-! ## Claim C10: an explicit port does not defeat the allow-list check -/

theorem lastIdxOf_eq_none (c : Char) : ∀ xs : List Char, c ∉ xs → lastIdxOf c xs = none
  | [], _ => rfl
  | x :: xs, h => by
    have hx : (x == c) = false := by
      refine beq_eq_false_iff_ne.mpr (fun e => h ?_)
      rw [e]
      exact List.mem_cons_self c xs
    have ih := lastIdxOf_eq_none c xs (fun hc => h (List.mem_cons_of_mem x hc))
    simp only [lastIdxOf, ih, hx]
    rfl

theorem lastIdxOf_append_cons (c : Char) :
    ∀ xs ys : List Char, c ∉ ys → lastIdxOf c (xs ++ c :: ys) = some xs.length
  | [], ys, h => by
    simp only [List.nil_append, lastIdxOf, lastIdxOf_eq_none c ys h, beq_self_eq_true,
      if_true, List.length_nil]
  | x :: xs, ys, h => by
    simp only [List.cons_append, lastIdxOf, List.append_eq,
      lastIdxOf_append_cons c xs ys h, List.length_cons]

theorem splitHostPort_allowlist (host port : List Char)
    (hhead : (host.head? == some '[') = false)
    (hport : port.all isDigitGo = true) (hcol : ':' ∉ port) :
    splitHostPort (host ++ ':' :: port) = (host, ':' :: port) := by
  have hv : validOptionalPort (':' :: port) = true := by
    simpa [validOptionalPort] using hport
  simp only [splitHostPort, lastIdxOf_append_cons ':' host port hcol,
    List.drop_left, List.take_left, hv, if_true, hhead, Bool.false_and]
  rfl

/-- The claim C10 as stated: a URL whose host is an allow-listed name
followed by an explicit numeric port passes the filter, because Hostname()
strips the port before the exact hostname comparison; the entry is kept
(in suffix-stripped form, which is the string itself whenever the literal
suffix is absent). -/
theorem cleanURLs_keeps_allowlisted_host_with_port (s : String) (u : GoURL)
    (host port : List Char)
    (hv : isUrlValid s = true) (hp : goParse s.data = some u)
    (hh : u.host = host ++ ':' :: port)
    (hdom : String.mk host ∈ validDomains)
    (hport : port.all isDigitGo = true) :
    u.hostname = host ∧ cleanURLs [s] = some [trimSuffixGo s targetBlankSuffix] := by
  have hcol : ':' ∉ port := by
    intro hc
    have := List.all_eq_true.mp hport _ hc
    simp [isDigitGo] at this
  have hlist : host = "s3.documentcloud.org".data ∨ host = "documentcloud.org".data
      ∨ host = "www.documentcloud.org".data ∨ host = "beta.documentcloud.org".data := by
    have h4 : String.mk host = "s3.documentcloud.org" ∨ String.mk host = "documentcloud.org"
        ∨ String.mk host = "www.documentcloud.org"
        ∨ String.mk host = "beta.documentcloud.org" := by
      simpa [validDomains] using hdom
    rcases h4 with h | h | h | h
    · exact Or.inl (congrArg String.data h)
    · exact Or.inr (Or.inl (congrArg String.data h))
    · exact Or.inr (Or.inr (Or.inl (congrArg String.data h)))
    · exact Or.inr (Or.inr (Or.inr (congrArg String.data h)))
  have hhead : (host.head? == some '[') = false := by
    rcases hlist with h | h | h | h <;> (subst h; decide)
  have hhn : u.hostname = host := by
    rw [GoURL.hostname, hh, splitHostPort_allowlist host port hhead hport hcol]
  refine ⟨hhn, ?_⟩
  have hg : getHostNameFromURL s = some (String.mk host) := by
    rw [getHostNameFromURL, hp]
    simp [hhn]
  simp [cleanURLs, hv, hg, hdom]

/-- Witness for C10: an allow-listed host with port 8443 is kept. -/
theorem cleanURLs_keeps_allowlisted_host_with_port_witness :
    cleanURLs ["https://documentcloud.org:8443/x"]
      = some ["https://documentcloud.org:8443/x"] := by
  have h := cleanURLs_keeps_allowlisted_host_with_port
    "https://documentcloud.org:8443/x"
    { scheme := "https".data, host := "documentcloud.org:8443".data,
      path := "/x".data }
    "documentcloud.org".data "8443".data
    (by decide) (by decide) (by decide) (by decide) (by decide)
  rw [h.2]
  decide

/-! ## Claim C7: the fatal branch of getHostNameFromURL -/

theorem mkWithPath_scheme (sch : List Char) (user : Option Userinfo) (host : List Char)
    (om fq : Bool) (rq p : List Char) (u : GoURL)
    (h : mkWithPath sch user host om fq rq p = some u) : u.scheme = sch := by
  unfold mkWithPath at h
  cases hu : unescapeGo p Encoding.path with
  | none => rw [hu] at h; cases h
  | some path => rw [hu] at h; cases h; rfl

theorem afterQuery_scheme (v : Bool) (sch : List Char) (fq : Bool) (rq rest : List Char)
    (u : GoURL) (h : afterQuery v sch fq rq rest = some u) : u.scheme = sch := by
  unfold afterQuery at h
  split at h
  next =>
    injection h with h'
    rw [← h']
  next =>
    split at h
    next => cases h
    next =>
      split at h
      next => cases h
      next =>
        split at h
        next =>
          have h2 : (match parseAuthority ((rest.drop 2).takeWhile (· != '/')) with
            | none => none
            | some (user, host) =>
                mkWithPath sch user host false fq rq
                  ((rest.drop 2).dropWhile (· != '/'))) = some u := h
          cases hpa : parseAuthority ((rest.drop 2).takeWhile (· != '/')) with
          | none => rw [hpa] at h2; cases h2
          | some uh =>
            obtain ⟨user, host⟩ := uh
            rw [hpa] at h2
            exact mkWithPath_scheme _ _ _ _ _ _ _ _ h2
        next => exact mkWithPath_scheme _ _ _ _ _ _ _ _ h

theorem parseQueryStage_scheme (v : Bool) (sch rest0 : List Char) (u : GoURL)
    (h : parseQueryStage v sch rest0 = some u) : u.scheme = sch := by
  unfold parseQueryStage at h
  split at h
  · exact afterQuery_scheme _ _ _ _ _ _ h
  · exact afterQuery_scheme _ _ _ _ _ _ h

theorem afterQuery_true_eq_false (sch : List Char) (hs : sch ≠ []) (fq : Bool)
    (rq rest : List Char) :
    afterQuery true sch fq rq rest = afterQuery false sch fq rq rest := by
  have hs' : (sch != []) = true := by simpa using hs
  unfold afterQuery
  by_cases hh : (rest.head? != some '/') = true
  · simp [hh, hs']
  · simp [hh, hs']

theorem parseQueryStage_true_eq_false (sch : List Char) (hs : sch ≠ [])
    (rest0 : List Char) :
    parseQueryStage true sch rest0 = parseQueryStage false sch rest0 := by
  unfold parseQueryStage
  split
  · exact afterQuery_true_eq_false sch hs _ _ _
  · exact afterQuery_true_eq_false sch hs _ _ _

theorem parseCore_true_imp_false (s : List Char) (u : GoURL)
    (h : parseCore true s = some u) (hs : u.scheme ≠ []) :
    parseCore false s = some u := by
  unfold parseCore at h ⊢
  by_cases h1 : containsCTL s = true
  · simp [h1] at h
  · by_cases h2 : s.isEmpty = true
    · simp [h1, h2] at h
    · by_cases h3 : (s == ['*']) = true
      · simp [h1, h2, h3] at h ⊢
        rw [← h] at hs
        simp at hs
      · simp only [h1, h2, h3, Bool.false_eq_true, if_false, Bool.and_true,
          Bool.and_false] at h ⊢
        cases hsch : getScheme s with
        | err => rw [hsch] at h; exact Option.noConfusion h
        | noScheme =>
          rw [hsch] at h
          have h' : parseQueryStage true [] s = some u := h
          exact absurd (parseQueryStage_scheme _ _ _ _ h') hs
        | found sch rest =>
          rw [hsch] at h
          have h' : parseQueryStage true (toLowerGo sch) rest = some u := h
          have hlow : toLowerGo sch ≠ [] := by
            have hsc := parseQueryStage_scheme _ _ _ _ h'
            rw [hsc] at hs
            exact hs
          show parseQueryStage false (toLowerGo sch) rest = some u
          rw [← parseQueryStage_true_eq_false (toLowerGo sch) hlow rest]
          exact h'

theorem cutAt_of_not_mem (c : Char) : ∀ xs : List Char, c ∉ xs → cutAt c xs = (xs, [])
  | [], _ => rfl
  | x :: xs, h => by
    have hx : (x != c) = true := by
      simp only [bne_iff_ne]
      exact fun e => h (e ▸ List.mem_cons_self x xs)
    have ih := cutAt_of_not_mem c xs (fun hc => h (List.mem_cons_of_mem x hc))
    have h1 := congrArg Prod.fst ih
    have h2 := congrArg Prod.snd ih
    simp only [cutAt] at h1 h2
    simp only [cutAt, List.takeWhile_cons, List.dropWhile_cons, hx, if_true]
    rw [h1, h2]

/-- Counterexample for C7: this string passes isUrlValid (ParseRequestURI
leaves everything after the question mark unvalidated in RawQuery), yet
url.Parse splits the fragment first and rejects its invalid escape, so
getHostNameFromURL reaches log.Fatalln and cleanURLs terminates the
process. -/
theorem isUrlValid_but_parse_fatal :
    isUrlValid "http://a/p?q#%zz" = true ∧
      goParse "http://a/p?q#%zz".data = none ∧
      cleanURLs ["http://a/p?q#%zz"] = none := by
  refine ⟨by decide, by decide, by decide⟩

/-- The claim C7 amended: for strings accepted by isUrlValid that carry a
scheme and contain no hash character, url.Parse also succeeds, so on lists
of such strings cleanURLs never reaches the fatal branch.  The original
claim, quantified over every string accepted by isUrlValid, is refuted by
the counterexample with a fragment bearing an invalid escape. -/
theorem cleanURLs_no_fatal (urls : List String)
    (h : ∀ s ∈ urls, isUrlValid s = true →
        (∃ u, goParseRequestURI s.data = some u ∧ u.scheme ≠ []) ∧ '#' ∉ s.data) :
    (cleanURLs urls).isSome = true := by
  induction urls with
  | nil => simp [cleanURLs]
  | cons s rest ih =>
    have ihs := ih (fun v hv' hvv => h v (List.mem_cons_of_mem s hv') hvv)
    by_cases hv : isUrlValid s = true
    · obtain ⟨⟨u, hu, hus⟩, hnohash⟩ := h s (List.mem_cons_self s rest) hv
      have hpf : parseCore false s.data = some u :=
        parseCore_true_imp_false _ _ hu hus
      have hgp : goParse s.data = some u := by
        unfold goParse
        rw [cutAt_of_not_mem '#' s.data hnohash]
        simp [hpf]
      have hg : getHostNameFromURL s = some (String.mk u.hostname) := by
        rw [getHostNameFromURL, hgp]
        rfl
      by_cases hd : validDomains.contains (String.mk u.hostname) = true
      · simp only [cleanURLs, hv, if_true, hg, hd]
        simpa using ihs
      · simp only [cleanURLs, hv, if_true, hg, hd, Bool.false_eq_true, if_false]
        exact ihs
    · simp only [cleanURLs, hv, Bool.false_eq_true, if_false]
      exact ihs

/-- Witness for the amended C7 at a concrete allow-listed URL. -/
theorem cleanURLs_no_fatal_witness :
    (cleanURLs ["https://documentcloud.org/a"]).isSome = true := by
  apply cleanURLs_no_fatal
  intro s hs hv
  rw [List.mem_singleton.mp hs]
  refine ⟨⟨{ scheme := "https".data,
             host := "documentcloud.org".data,
             path := "/a".data }, by decide, by decide⟩, by decide⟩

/-! ## Claim C1: soundness of the domain filter.

The remainder of the development proves that stripping the literal
trailing suffix from a URL that parsed with an allow-listed hostname
leaves a string that still parses with the same host.  The argument walks
the stages of parseCore and uses that the suffix contains none of the
delimiter characters hash, question mark, slash, colon, at-sign or
percent, and that its first character t is not a hexadecimal digit. -/

theorem targetBlankChars_ne_nil : targetBlankChars ≠ [] := by decide

theorem unescapeGo_pct_eq (h1 h2 : Char) (r : List Char) (m : Encoding) :
    unescapeGo ('%' :: h1 :: h2 :: r) m =
      (if ishexGo h1 && ishexGo h2 then
        if m == Encoding.host && unhexGo h1 < 8 && !(h1 == '2' && h2 == '5') then none
        else if m == Encoding.zone && !(h1 == '2' && h2 == '5') &&
            unhexGo h1 * 16 + unhexGo h2 != 32 &&
            shouldEscape (Char.ofNat (unhexGo h1 * 16 + unhexGo h2)) Encoding.host then none
        else (unescapeGo r m).map (Char.ofNat (unhexGo h1 * 16 + unhexGo h2) :: ·)
      else none) := by
  rfl

theorem unescapeGo_raw_eq (c : Char) (r : List Char) (m : Encoding) (hc : ¬ c = '%') :
    unescapeGo (c :: r) m =
      (if (m == Encoding.host || m == Encoding.zone) && c.toNat < 128 &&
          shouldEscape c m then none
       else (unescapeGo r m).map (c :: ·)) := by
  conv_lhs => unfold unescapeGo
  simp only [hc, if_false]

theorem unescapeGo_pct_branch (h1 h2 : Char) (m : Encoding) :
    (∀ r : List Char, unescapeGo ('%' :: h1 :: h2 :: r) m = none) ∨
      (∃ ch : Char, ∀ r : List Char,
        unescapeGo ('%' :: h1 :: h2 :: r) m = (unescapeGo r m).map (ch :: ·)) := by
  by_cases hhex : (ishexGo h1 && ishexGo h2) = true
  · by_cases hg1 : (m == Encoding.host && decide (unhexGo h1 < 8) &&
        !(h1 == '2' && h2 == '5')) = true
    · refine Or.inl (fun r => ?_)
      rw [unescapeGo_pct_eq, if_pos hhex, if_pos hg1]
    · by_cases hg2 : (m == Encoding.zone && !(h1 == '2' && h2 == '5') &&
          (unhexGo h1 * 16 + unhexGo h2 != 32) &&
          shouldEscape (Char.ofNat (unhexGo h1 * 16 + unhexGo h2)) Encoding.host) = true
      · refine Or.inl (fun r => ?_)
        rw [unescapeGo_pct_eq, if_pos hhex, if_neg hg1, if_pos hg2]
      · refine Or.inr ⟨Char.ofNat (unhexGo h1 * 16 + unhexGo h2), fun r => ?_⟩
        rw [unescapeGo_pct_eq, if_pos hhex, if_neg hg1, if_neg hg2]
  · refine Or.inl (fun r => ?_)
    rw [unescapeGo_pct_eq, if_neg hhex]

theorem unescapeGo_cons_raw (c : Char) (m : Encoding) (hc : ¬ c = '%') :
    (∀ r : List Char, unescapeGo (c :: r) m = none) ∨
      (∀ r : List Char, unescapeGo (c :: r) m = (unescapeGo r m).map (c :: ·)) := by
  by_cases hraw : ((m == Encoding.host || m == Encoding.zone) &&
      decide (c.toNat < 128) && shouldEscape c m) = true
  · refine Or.inl (fun r => ?_)
    rw [unescapeGo_raw_eq c r m hc, if_pos hraw]
  · refine Or.inr (fun r => ?_)
    rw [unescapeGo_raw_eq c r m hc, if_neg hraw]

theorem unescapeGo_append_target (m : Encoding)
    (hT : unescapeGo targetBlankChars m = some targetBlankChars) :
    ∀ xs y, unescapeGo (xs ++ targetBlankChars) m = some y →
      ∃ y2, unescapeGo xs m = some y2 ∧ y = y2 ++ targetBlankChars
  | [], y, h => by
    rw [List.nil_append, hT] at h
    exact ⟨[], rfl, (Option.some.inj h).symm⟩
  | c :: rest, y, h => by
    rw [List.cons_append] at h
    by_cases hc : c = '%'
    · subst hc
      rcases rest with _ | ⟨d1, rest1⟩
      · exfalso
        rw [List.nil_append] at h
        rw [show targetBlankChars = 't' :: 'a' :: "rget=&quot;_blank&quot;".data
          from rfl] at h
        have hx : (ishexGo 't' && ishexGo 'a') = false := by decide
        simp [unescapeGo, hx] at h
      · rcases rest1 with _ | ⟨d2, rest2⟩
        · exfalso
          have hsh : ([d1] : List Char) ++ targetBlankChars
              = d1 :: 't' :: "arget=&quot;_blank&quot;".data := rfl
          rw [hsh] at h
          have hx : (ishexGo d1 && ishexGo 't') = false := by
            have : ishexGo 't' = false := by decide
            rw [this, Bool.and_false]
          simp [unescapeGo, hx] at h
        · have hsh : (d1 :: d2 :: rest2) ++ targetBlankChars
              = d1 :: d2 :: (rest2 ++ targetBlankChars) := rfl
          rw [hsh] at h
          rcases unescapeGo_pct_branch d1 d2 m with hnone | ⟨ch, hch⟩
          · rw [hnone (rest2 ++ targetBlankChars)] at h
            cases h
          · rw [hch (rest2 ++ targetBlankChars)] at h
            cases hrec : unescapeGo (rest2 ++ targetBlankChars) m with
            | none => rw [hrec] at h; cases h
            | some yr =>
              rw [hrec] at h
              obtain ⟨y2, hy2, hyr⟩ := unescapeGo_append_target m hT rest2 yr hrec
              refine ⟨ch :: y2, ?_, ?_⟩
              · rw [hch rest2, hy2]
                rfl
              · rw [← Option.some.inj h, hyr]
                rfl
    · rcases unescapeGo_cons_raw c m hc with hnone | hcons
      · rw [hnone (rest ++ targetBlankChars)] at h
        cases h
      · rw [hcons (rest ++ targetBlankChars)] at h
        cases hrec : unescapeGo (rest ++ targetBlankChars) m with
        | none => rw [hrec] at h; cases h
        | some yr =>
          rw [hrec] at h
          obtain ⟨y2, hy2, hyr⟩ := unescapeGo_append_target m hT rest yr hrec
          refine ⟨c :: y2, ?_, ?_⟩
          · rw [hcons rest, hy2]
            rfl
          · rw [← Option.some.inj h, hyr]
            rfl

theorem getSchemeAux_targetBlank :
    ∀ (acc : List Char) (isFirst : Bool),
      getSchemeAux targetBlankChars acc isFirst = SchemeRes.noScheme := by
  intro acc isFirst
  have step : ∀ (c : Char) (rest acc2 : List Char) (isF : Bool),
      isSchemeLetter c = true →
      getSchemeAux (c :: rest) acc2 isF = getSchemeAux rest (acc2 ++ [c]) false := by
    intro c rest acc2 isF h
    simp [getSchemeAux, h]
  have stop : ∀ (rest acc2 : List Char) (isF : Bool),
      getSchemeAux ('=' :: rest) acc2 isF = SchemeRes.noScheme := by
    intro rest acc2 isF
    simp only [getSchemeAux, (by decide : isSchemeLetter '=' = false),
      (by decide : (isDigitGo '=' || '=' == '+' || '=' == '-' || '=' == '.') = false),
      (by decide : ('=' == ':') = false), Bool.false_eq_true, if_false]
  rw [show targetBlankChars
      = 't' :: 'a' :: 'r' :: 'g' :: 'e' :: 't' :: '=' :: "&quot;_blank&quot;".data
    from rfl]
  rw [step 't' _ _ _ (by decide), step 'a' _ _ _ (by decide),
    step 'r' _ _ _ (by decide), step 'g' _ _ _ (by decide),
    step 'e' _ _ _ (by decide), step 't' _ _ _ (by decide), stop]

theorem getSchemeAux_append_target :
    ∀ (p acc : List Char) (isFirst : Bool),
      getSchemeAux (p ++ targetBlankChars) acc isFirst =
        (match getSchemeAux p acc isFirst with
         | SchemeRes.found sch rest => SchemeRes.found sch (rest ++ targetBlankChars)
         | SchemeRes.err => SchemeRes.err
         | SchemeRes.noScheme => SchemeRes.noScheme)
  | [], acc, isFirst => by
    rw [List.nil_append]
    rw [getSchemeAux_targetBlank]
    rfl
  | c :: p, acc, isFirst => by
    rw [List.cons_append]
    by_cases h1 : isSchemeLetter c = true
    · simp only [getSchemeAux, h1, if_true]
      exact getSchemeAux_append_target p (acc ++ [c]) false
    · by_cases h2 : (isDigitGo c || c == '+' || c == '-' || c == '.') = true
      · simp only [getSchemeAux, h1, h2, if_true, if_false]
        cases isFirst with
        | true => rfl
        | false => exact getSchemeAux_append_target p (acc ++ [c]) false
      · by_cases h3 : (c == ':') = true
        · simp only [getSchemeAux, h1, h2, h3, if_true, if_false]
          cases isFirst with
          | true => rfl
          | false => rfl
        · simp only [getSchemeAux, h1, h2, h3, Bool.false_eq_true, if_false]

theorem cutAt_cons_self (c : Char) (zs : List Char) : cutAt c (c :: zs) = ([], zs) := by
  simp [cutAt, List.takeWhile_cons, List.dropWhile_cons]

theorem cutAt_append_left (c : Char) :
    ∀ xs zs : List Char, c ∈ xs →
      cutAt c (xs ++ zs) = ((cutAt c xs).1, (cutAt c xs).2 ++ zs)
  | [], _, h => absurd h (List.not_mem_nil c)
  | x :: xs, zs, h => by
    by_cases hx : x = c
    · subst hx
      rw [List.cons_append, cutAt_cons_self, cutAt_cons_self]
    · have hm : c ∈ xs := by
        rcases List.mem_cons.mp h with h' | h'
        · exact absurd h'.symm hx
        · exact h'
      have hne : (x != c) = true := bne_iff_ne.mpr (fun e => hx e)
      have ih := cutAt_append_left c xs zs hm
      have i1 := congrArg Prod.fst ih
      have i2 := congrArg Prod.snd ih
      simp only [cutAt] at i1 i2
      simp only [cutAt, List.cons_append, List.takeWhile_cons, List.dropWhile_cons,
        hne, if_true]
      rw [i1, i2]

theorem cutAt_append_right (c : Char) :
    ∀ xs zs : List Char, c ∉ xs →
      cutAt c (xs ++ zs) = (xs ++ (cutAt c zs).1, (cutAt c zs).2)
  | [], zs, _ => by simp
  | x :: xs, zs, h => by
    have hx : (x != c) = true := by
      refine bne_iff_ne.mpr (fun e => h ?_)
      rw [e]
      exact List.mem_cons_self c xs
    have ih := cutAt_append_right c xs zs (fun hc => h (List.mem_cons_of_mem x hc))
    have i1 := congrArg Prod.fst ih
    have i2 := congrArg Prod.snd ih
    simp only [cutAt] at i1 i2
    simp only [cutAt, List.cons_append, List.takeWhile_cons, List.dropWhile_cons,
      hx, if_true]
    rw [i1, i2]

theorem takeWhile_append_stop (p : Char → Bool) :
    ∀ xs zs : List Char, (∃ x ∈ xs, p x = false) →
      (xs ++ zs).takeWhile p = xs.takeWhile p ∧
        (xs ++ zs).dropWhile p = xs.dropWhile p ++ zs
  | [], _, h => by simp at h
  | x :: xs, zs, h => by
    by_cases hx : p x = true
    · have hm : ∃ x0 ∈ xs, p x0 = false := by
        rcases h with ⟨x0, hx0, hp0⟩
        rcases List.mem_cons.mp hx0 with e | e
        · subst e; rw [hx] at hp0; cases hp0
        · exact ⟨x0, e, hp0⟩
      have ih := takeWhile_append_stop p xs zs hm
      constructor
      · simp only [List.cons_append, List.takeWhile_cons, hx, if_true, ih.1]
      · simp only [List.cons_append, List.dropWhile_cons, hx, if_true, ih.2]
    · have hx' : p x = false := Bool.eq_false_iff.mpr hx
      constructor
      · simp only [List.cons_append, List.takeWhile_cons, hx', Bool.false_eq_true,
          if_false]
      · simp only [List.cons_append, List.dropWhile_cons, hx', Bool.false_eq_true,
          if_false]

theorem lastIdxOf_append_no_right (c : Char) :
    ∀ xs zs : List Char, c ∉ zs → lastIdxOf c (xs ++ zs) = lastIdxOf c xs
  | [], zs, h => by
    rw [List.nil_append, lastIdxOf_eq_none c zs h]
    rfl
  | x :: xs, zs, h => by
    have ih := lastIdxOf_append_no_right c xs zs h
    simp only [List.cons_append, lastIdxOf, List.append_eq, ih]

theorem lastIdxOf_lt_length (c : Char) :
    ∀ (xs : List Char) (i : Nat), lastIdxOf c xs = some i → i < xs.length
  | [], i, h => by cases h
  | x :: xs, i, h => by
    simp only [lastIdxOf] at h
    cases hr : lastIdxOf c xs with
    | some j =>
      rw [hr] at h
      injection h with h'
      subst h'
      have := lastIdxOf_lt_length c xs j hr
      simpa [List.length_cons] using Nat.succ_lt_succ this
    | none =>
      rw [hr] at h
      by_cases hx : (x == c) = true
      · rw [if_pos hx] at h
        injection h with h'
        subst h'
        simp [List.length_cons]
      · rw [if_neg hx] at h
        cases h

theorem validOptionalPort_append_target :
    ∀ a : List Char, validOptionalPort (a ++ targetBlankChars) = false
  | [] => by decide
  | d :: w => by
    simp only [List.cons_append, validOptionalPort, List.all_append,
      (by decide : targetBlankChars.all isDigitGo = false), Bool.and_false]

theorem containsCTL_append_left (xs zs : List Char)
    (h : containsCTL (xs ++ zs) = false) : containsCTL xs = false := by
  simp only [containsCTL, List.any_append, Bool.or_eq_false_iff] at h
  exact h.1

theorem getLast_append_target (xs : List Char) :
    (xs ++ targetBlankChars).getLast? = some ';' := by
  rw [List.getLast?_append_of_ne_nil xs targetBlankChars_ne_nil]
  decide

theorem splitHostPort_target_suffix (h2 : List Char) :
    (splitHostPort (h2 ++ targetBlankChars)).1.getLast? = some ';' := by
  have hbr : ((h2 ++ targetBlankChars).getLast? == some ']') = false := by
    rw [getLast_append_target]
    decide
  cases hci : lastIdxOf ':' (h2 ++ targetBlankChars) with
  | none =>
    simp only [splitHostPort, hci, hbr, Bool.and_false, Bool.false_eq_true, if_false]
    exact getLast_append_target h2
  | some i =>
    have hi : lastIdxOf ':' h2 = some i := by
      rw [← lastIdxOf_append_no_right ':' h2 targetBlankChars (by decide)]
      exact hci
    have hil := lastIdxOf_lt_length ':' h2 i hi
    have hd : (h2 ++ targetBlankChars).drop i = h2.drop i ++ targetBlankChars :=
      List.drop_append_of_le_length (Nat.le_of_lt hil)
    simp only [splitHostPort, hci, hd, validOptionalPort_append_target,
      Bool.false_eq_true, if_false, hbr, Bool.and_false]
    exact getLast_append_target h2

theorem parseHost_append_target (x hostv : List Char)
    (h : parseHost (x ++ targetBlankChars) = some hostv) :
    ∃ hpre, hostv = hpre ++ targetBlankChars := by
  unfold parseHost at h
  by_cases hbr : ((x ++ targetBlankChars).head? == some '[') = true
  · rw [if_pos hbr] at h
    split at h
    next => cases h
    next j hj =>
      have hj' : lastIdxOf ']' x = some j := by
        rw [← lastIdxOf_append_no_right ']' x targetBlankChars (by decide)]
        exact hj
      have hjl := lastIdxOf_lt_length ']' x j hj'
      have hd : (x ++ targetBlankChars).drop (j + 1)
          = x.drop (j + 1) ++ targetBlankChars :=
        List.drop_append_of_le_length hjl
      rw [hd, validOptionalPort_append_target] at h
      simp only [Bool.not_false, if_true] at h
      cases h
  · rw [if_neg hbr] at h
    split at h
    next i hlast =>
      have hi : lastIdxOf ':' x = some i := by
        rw [← lastIdxOf_append_no_right ':' x targetBlankChars (by decide)]
        exact hlast
      have hil := lastIdxOf_lt_length ':' x i hi
      have hd : (x ++ targetBlankChars).drop i = x.drop i ++ targetBlankChars :=
        List.drop_append_of_le_length (Nat.le_of_lt hil)
      rw [hd, validOptionalPort_append_target] at h
      simp only [Bool.not_false, if_true] at h
      cases h
    next =>
      obtain ⟨y2, _, hy⟩ :=
        unescapeGo_append_target Encoding.host (by decide) x hostv h
      exact ⟨y2, hy⟩

theorem parseAuthority_append_target (a : List Char) (user : Option Userinfo)
    (hostv : List Char)
    (h : parseAuthority (a ++ targetBlankChars) = some (user, hostv)) :
    ∃ hpre, hostv = hpre ++ targetBlankChars := by
  unfold parseAuthority at h
  split at h
  next hat =>
    -- no at-sign: host is the whole authority
    split at h
    next => cases h
    next hst hph =>
      injection h with h'
      injection h' with h1 h2
      subst h2
      exact parseHost_append_target _ _ hph
  next i hat =>
    have hi : lastIdxOf '@' a = some i := by
      rw [← lastIdxOf_append_no_right '@' a targetBlankChars (by decide)]
      exact hat
    have hil := lastIdxOf_lt_length '@' a i hi
    have hd : (a ++ targetBlankChars).drop (i + 1)
        = a.drop (i + 1) ++ targetBlankChars :=
      List.drop_append_of_le_length hil
    rw [hd] at h
    split at h
    next => cases h
    next hst hph =>
      have hsuf := parseHost_append_target (a.drop (i + 1)) hst hph
      split at h
      next => cases h
      next =>
        split at h
        next =>
          split at h
          next => cases h
          next un hun =>
            injection h with h'
            injection h' with h1 h2
            subst h2
            exact hsuf
        next =>
          split at h
          next un pw hun hpw =>
            injection h with h'
            injection h' with h1 h2
            subst h2
            exact hsuf
          next => cases h

theorem mkWithPath_host (sch : List Char) (user : Option Userinfo) (host : List Char)
    (om fq : Bool) (rq p : List Char) (u : GoURL)
    (h : mkWithPath sch user host om fq rq p = some u) : u.host = host := by
  unfold mkWithPath at h
  cases hu : unescapeGo p Encoding.path with
  | none => rw [hu] at h; cases h
  | some path => rw [hu] at h; cases h; rfl

theorem mkWithPath_strip (sch : List Char) (user : Option Userinfo) (host : List Char)
    (om fq : Bool) (rq p : List Char) (u : GoURL)
    (h : mkWithPath sch user host om fq rq (p ++ targetBlankChars) = some u) :
    ∃ u2, mkWithPath sch user host om fq rq p = some u2 ∧ u2.host = host := by
  unfold mkWithPath at h ⊢
  cases hu : unescapeGo (p ++ targetBlankChars) Encoding.path with
  | none => rw [hu] at h; cases h
  | some y =>
    obtain ⟨y2, hy2, _⟩ := unescapeGo_append_target Encoding.path (by decide) p y hu
    rw [hy2]
    exact ⟨_, rfl, rfl⟩

theorem hostname_host_congr (u2 u : GoURL) (h : u2.host = u.host) :
    u2.hostname = u.hostname := by
  rw [GoURL.hostname, GoURL.hostname, h]

theorem host_ne_nil_of_mem_validDomains (u : GoURL)
    (hdu : String.mk u.hostname ∈ validDomains) : u.host ≠ [] := by
  intro hh
  rw [GoURL.hostname, hh] at hdu
  exact absurd hdu (by decide)

theorem hostname_getLast_ne_semi (u : GoURL)
    (hdu : String.mk u.hostname ∈ validDomains) :
    u.hostname.getLast? ≠ some ';' := by
  intro hl
  have h4 : String.mk u.hostname = "s3.documentcloud.org"
      ∨ String.mk u.hostname = "documentcloud.org"
      ∨ String.mk u.hostname = "www.documentcloud.org"
      ∨ String.mk u.hostname = "beta.documentcloud.org" := by
    simpa [validDomains] using hdu
  rcases h4 with h | h | h | h <;>
    (have hdata : u.hostname = _ := congrArg String.data h
     rw [hdata] at hl
     exact absurd hl (by decide))

theorem mkWithPath_fqrq_host (sch : List Char) (user : Option Userinfo)
    (host : List Char) (om fq fq2 : Bool) (rq rq2 p : List Char) :
    (mkWithPath sch user host om fq rq p).map GoURL.host
      = (mkWithPath sch user host om fq2 rq2 p).map GoURL.host := by
  unfold mkWithPath
  cases unescapeGo p Encoding.path <;> rfl

theorem afterQuery_fqrq_host (v : Bool) (sch : List Char) (fq fq2 : Bool)
    (rq rq2 rest : List Char) :
    (afterQuery v sch fq rq rest).map GoURL.host
      = (afterQuery v sch fq2 rq2 rest).map GoURL.host := by
  unfold afterQuery
  split
  next => rfl
  next =>
    split
    next => rfl
    next =>
      split
      next => rfl
      next =>
        split
        next =>
          cases hpa : parseAuthority ((rest.drop 2).takeWhile (· != '/')) with
          | none => rfl
          | some uh =>
            obtain ⟨user, host⟩ := uh
            exact mkWithPath_fqrq_host sch (user) host false fq fq2 rq rq2 _
        next => exact mkWithPath_fqrq_host sch none [] _ fq fq2 rq rq2 rest

theorem hasPre2Slash_slash_append (r2 : List Char) :
    hasPre2Slash ('/' :: (r2 ++ targetBlankChars)) = hasPre2Slash ('/' :: r2) := by
  cases r2 with
  | nil => decide
  | cons a t =>
    show ("//".data.isPrefixOf ('/' :: a :: (t ++ targetBlankChars)))
      = ("//".data.isPrefixOf ('/' :: a :: t))
    simp [List.isPrefixOf]

theorem hasPre3Slash_slash_append (r2 : List Char) :
    hasPre3Slash ('/' :: (r2 ++ targetBlankChars)) = hasPre3Slash ('/' :: r2) := by
  cases r2 with
  | nil => decide
  | cons a t =>
    cases t with
    | nil =>
      show ("///".data.isPrefixOf ('/' :: a :: ('t' :: "arget=&quot;_blank&quot;".data)))
        = ("///".data.isPrefixOf ['/', a])
      simp [List.isPrefixOf, (by decide : (('/' : Char) == 't') = false)]
    | cons b t2 =>
      show ("///".data.isPrefixOf ('/' :: a :: b :: (t2 ++ targetBlankChars)))
        = ("///".data.isPrefixOf ('/' :: a :: b :: t2))
      simp [List.isPrefixOf]


theorem afterQuery_strip (sch : List Char) (fq : Bool) (rq : List Char)
    (r : List Char) (u : GoURL)
    (h : afterQuery false sch fq rq (r ++ targetBlankChars) = some u)
    (hdu : String.mk u.hostname ∈ validDomains) :
    ∃ u2, afterQuery false sch fq rq r = some u2 ∧ u2.host = u.host := by
  have hostne := host_ne_nil_of_mem_validDomains u hdu
  have hsemi := hostname_getLast_ne_semi u hdu
  rcases r with _ | ⟨c, r'⟩
  · exfalso
    rw [List.nil_append] at h
    unfold afterQuery at h
    simp only [(by decide : (targetBlankChars.head? != some '/') = true),
      Bool.true_and, Bool.and_false,
      (by decide : firstSegmentHasColon targetBlankChars = false),
      (by decide : hasPre2Slash targetBlankChars = false),
      Bool.false_eq_true, if_false] at h
    by_cases hsch : (sch != []) = true
    · rw [if_pos hsch] at h
      injection h with h'
      rw [← h'] at hostne
      exact hostne rfl
    · rw [if_neg hsch] at h
      exact hostne (mkWithPath_host _ _ _ _ _ _ _ _ h)
  · by_cases hc : c = '/'
    · subst hc
      rw [show ('/' :: r') ++ targetBlankChars = '/' :: (r' ++ targetBlankChars)
        from rfl] at h
      unfold afterQuery at h ⊢
      simp only [List.head?_cons, bne_self_eq_false, Bool.false_and,
        Bool.false_eq_true, if_false, Bool.not_false, Bool.true_and,
        hasPre2Slash_slash_append, hasPre3Slash_slash_append] at h ⊢
      by_cases hcond : ((sch != [] || !hasPre3Slash ('/' :: r'))
          && hasPre2Slash ('/' :: r')) = true
      · rw [if_pos hcond] at h ⊢
        have hpre2 : hasPre2Slash ('/' :: r') = true :=
          ((Bool.and_eq_true _ _).mp hcond).2
        obtain ⟨r2, hr2⟩ : ∃ r2, r' = '/' :: r2 := by
          cases r' with
          | nil => exact absurd hpre2 (by decide)
          | cons a t =>
            have ha : '/' = a := by
              have h2 := hpre2
              simp [hasPre2Slash, List.isPrefixOf] at h2
              exact h2
            exact ⟨t, by rw [← ha]⟩
        subst hr2
        simp only [List.cons_append, List.drop_succ_cons, List.drop_zero] at h ⊢
        by_cases hm : '/' ∈ r2
        · have hstop := takeWhile_append_stop (· != '/') r2 targetBlankChars
            ⟨'/', hm, by decide⟩
          rw [hstop.1, hstop.2] at h
          cases hpa : parseAuthority (r2.takeWhile (· != '/')) with
          | none => rw [hpa] at h; cases h
          | some uh =>
            obtain ⟨user, host⟩ := uh
            rw [hpa] at h
            have huh : u.host = host := mkWithPath_host _ _ _ _ _ _ _ _ h
            obtain ⟨u2, hu2, hu2h⟩ :=
              mkWithPath_strip sch user host false fq rq (r2.dropWhile (· != '/')) u h
            exact ⟨u2, hu2, by rw [hu2h, huh]⟩
        · exfalso
          have hall : ∀ x ∈ r2, ((x != '/') : Bool) = true :=
            fun x hx => bne_iff_ne.mpr (fun e => hm (e ▸ hx))
          have htake : ((r2 ++ targetBlankChars).takeWhile (· != '/'))
              = r2 ++ targetBlankChars := by
            rw [List.takeWhile_append_of_pos hall,
              show targetBlankChars.takeWhile (fun x => x != '/') = targetBlankChars
                from by decide]
          rw [htake] at h
          cases hpa : parseAuthority (r2 ++ targetBlankChars) with
          | none => rw [hpa] at h; cases h
          | some uh =>
            obtain ⟨user, host⟩ := uh
            rw [hpa] at h
            obtain ⟨hpre, hhost⟩ := parseAuthority_append_target r2 user host hpa
            have huh : u.host = host := mkWithPath_host _ _ _ _ _ _ _ _ h
            apply hsemi
            rw [GoURL.hostname, huh, hhost]
            exact splitHostPort_target_suffix hpre
      · rw [if_neg hcond] at h ⊢
        exfalso
        exact hostne (mkWithPath_host _ _ _ _ _ _ _ _ h)
    · exfalso
      have hbne : ((some c != (some '/' : Option Char)) : Bool) = true :=
        bne_iff_ne.mpr (fun e => hc (Option.some.inj e))
      rw [show (c :: r') ++ targetBlankChars = c :: (r' ++ targetBlankChars)
        from rfl] at h
      unfold afterQuery at h
      simp only [List.head?_cons, hbne, Bool.true_and, Bool.and_false,
        Bool.false_eq_true, if_false] at h
      by_cases hsch : (sch != []) = true
      · rw [if_pos hsch] at h
        injection h with h'
        rw [← h'] at hostne
        exact hostne rfl
      · rw [if_neg hsch] at h
        by_cases hfsc : firstSegmentHasColon (c :: (r' ++ targetBlankChars)) = true
        · rw [if_pos hfsc] at h
          cases h
        · rw [if_neg hfsc] at h
          have hp2 : hasPre2Slash (c :: (r' ++ targetBlankChars)) = false := by
            show ("//".data.isPrefixOf (c :: (r' ++ targetBlankChars))) = false
            have hsl : (('/' : Char) == c) = false :=
              beq_eq_false_iff_ne.mpr (fun e => hc e.symm)
            simp [List.isPrefixOf, hsl]
          rw [hp2, Bool.and_false] at h
          simp only [Bool.false_eq_true, if_false] at h
          exact hostne (mkWithPath_host _ _ _ _ _ _ _ _ h)

theorem parseQueryStage_strip (sch r0 : List Char) (u : GoURL)
    (h : parseQueryStage false sch (r0 ++ targetBlankChars) = some u)
    (hdu : String.mk u.hostname ∈ validDomains) :
    ∃ u2, parseQueryStage false sch r0 = some u2 ∧ u2.host = u.host := by
  have hglast : ((r0 ++ targetBlankChars).getLast? == some '?') = false := by
    rw [getLast_append_target]
    decide
  unfold parseQueryStage at h ⊢
  rw [hglast, Bool.false_and] at h
  simp only [Bool.false_eq_true, if_false] at h
  by_cases hg : ((r0.getLast? == some '?') && !(r0.dropLast.contains '?')) = true
  · rw [if_pos hg]
    obtain ⟨hlast, hnot⟩ := (Bool.and_eq_true _ _).mp hg
    have hr0ne : r0 ≠ [] := by
      intro e
      rw [e] at hlast
      exact absurd hlast (by decide)
    have hq : r0.getLast hr0ne = '?' := by
      have h1 := List.getLast?_eq_getLast r0 hr0ne
      have h2 : r0.getLast? = some '?' := by
        have := hlast
        simpa using this
      rw [h1] at h2
      exact Option.some.inj h2
    have hsplit : r0.dropLast ++ ['?'] = r0 := by
      have := List.dropLast_concat_getLast hr0ne
      rw [hq] at this
      exact this
    have hrT : r0 ++ targetBlankChars
        = r0.dropLast ++ '?' :: targetBlankChars := by
      conv_lhs => rw [← hsplit]
      rw [List.append_assoc]
      rfl
    have hcf : r0.dropLast.contains '?' = false := by
      cases hcc : r0.dropLast.contains '?'
      · rfl
      · rw [hcc] at hnot
        cases hnot
    have hnotin : '?' ∉ r0.dropLast := by
      intro hin
      have : r0.dropLast.contains '?' = true := by simpa using hin
      rw [hcf] at this
      cases this
    rw [hrT, cutAt_append_right '?' r0.dropLast ('?' :: targetBlankChars) hnotin,
      cutAt_cons_self] at h
    have h2 : afterQuery false sch false targetBlankChars (r0.dropLast ++ [])
        = some u := h
    rw [List.append_nil] at h2
    have hcongr := afterQuery_fqrq_host false sch false true
      targetBlankChars [] r0.dropLast
    rw [h2] at hcongr
    cases hres : afterQuery false sch true [] r0.dropLast with
    | none =>
      rw [hres] at hcongr
      simp at hcongr
    | some u2 =>
      rw [hres] at hcongr
      simp only [Option.map_some'] at hcongr
      exact ⟨u2, rfl, (Option.some.inj hcongr).symm⟩
  · rw [if_neg hg]
    by_cases hq : '?' ∈ r0
    · rw [cutAt_append_left '?' r0 targetBlankChars hq] at h
      have hcongr := afterQuery_fqrq_host false sch false false
        ((cutAt '?' r0).2 ++ targetBlankChars) (cutAt '?' r0).2 (cutAt '?' r0).1
      have h2 : afterQuery false sch false ((cutAt '?' r0).2 ++ targetBlankChars)
          (cutAt '?' r0).1 = some u := h
      rw [h2] at hcongr
      cases hres : afterQuery false sch false (cutAt '?' r0).2 (cutAt '?' r0).1 with
      | none =>
        rw [hres] at hcongr
        simp at hcongr
      | some u2 =>
        rw [hres] at hcongr
        simp only [Option.map_some'] at hcongr
        exact ⟨u2, rfl, (Option.some.inj hcongr).symm⟩
    · have hq2 : '?' ∉ r0 ++ targetBlankChars := by
        intro hin
        rcases List.mem_append.mp hin with hin | hin
        · exact hq hin
        · exact absurd hin (by decide)
      rw [cutAt_of_not_mem '?' (r0 ++ targetBlankChars) hq2] at h
      rw [cutAt_of_not_mem '?' r0 hq]
      exact afterQuery_strip sch false [] r0 u h hdu

theorem parseCore_strip (p : List Char) (u : GoURL)
    (h : parseCore false (p ++ targetBlankChars) = some u)
    (hdu : String.mk u.hostname ∈ validDomains) :
    ∃ u2, parseCore false p = some u2 ∧ u2.host = u.host := by
  have hostne := host_ne_nil_of_mem_validDomains u hdu
  unfold parseCore at h ⊢
  by_cases hctl : containsCTL (p ++ targetBlankChars) = true
  · rw [if_pos hctl] at h
    cases h
  · rw [if_neg hctl] at h
    have hctlp : ¬ containsCTL p = true := by
      have := containsCTL_append_left p targetBlankChars (Bool.eq_false_iff.mpr hctl)
      rw [this]
      exact Bool.false_ne_true
    rw [if_neg hctlp]
    rw [show ((p ++ targetBlankChars).isEmpty && false) = false from Bool.and_false _]
      at h
    rw [show (p.isEmpty && false) = false from Bool.and_false _]
    simp only [Bool.false_eq_true, if_false] at h ⊢
    have hsT : ((p ++ targetBlankChars) == ['*']) = false := by
      cases hb : (p ++ targetBlankChars) == ['*'] with
      | false => rfl
      | true =>
        exfalso
        have he : p ++ targetBlankChars = ['*'] := by simpa using hb
        have hlen := congrArg List.length he
        simp only [List.length_append, List.length_cons, List.length_nil] at hlen
        have h2l : 2 <= targetBlankChars.length := by decide
        omega
    rw [hsT] at h
    simp only [Bool.false_eq_true, if_false] at h
    by_cases hps : (p == ['*']) = true
    · exfalso
      have hp2 : p = ['*'] := by simpa using hps
      subst hp2
      have hval : (match getScheme (['*'] ++ targetBlankChars) with
          | SchemeRes.err => none
          | SchemeRes.noScheme => parseQueryStage false [] (['*'] ++ targetBlankChars)
          | SchemeRes.found sch rest =>
            parseQueryStage false (toLowerGo sch) rest).map GoURL.host
          = some [] := by decide
      rw [h] at hval
      simp only [Option.map_some'] at hval
      exact hostne (Option.some.inj hval)
    · rw [if_neg hps]
      have hs2 : getScheme (p ++ targetBlankChars)
          = (match getScheme p with
             | SchemeRes.found sch rest =>
               SchemeRes.found sch (rest ++ targetBlankChars)
             | SchemeRes.err => SchemeRes.err
             | SchemeRes.noScheme => SchemeRes.noScheme) :=
        getSchemeAux_append_target p [] true
      rw [hs2] at h
      cases hgs : getScheme p with
      | err =>
        rw [hgs] at h
        exact Option.noConfusion h
      | noScheme =>
        rw [hgs] at h
        have h2 : parseQueryStage false [] (p ++ targetBlankChars) = some u := h
        obtain ⟨u2, hu2, hh⟩ := parseQueryStage_strip [] p u h2 hdu
        exact ⟨u2, hu2, hh⟩
      | found sch rest =>
        rw [hgs] at h
        have h2 : parseQueryStage false (toLowerGo sch) (rest ++ targetBlankChars)
            = some u := h
        obtain ⟨u2, hu2, hh⟩ := parseQueryStage_strip (toLowerGo sch) rest u h2 hdu
        exact ⟨u2, hu2, hh⟩

theorem goParse_strip (p : List Char) (u : GoURL)
    (h : goParse (p ++ targetBlankChars) = some u)
    (hdu : String.mk u.hostname ∈ validDomains) :
    ∃ u2, goParse p = some u2 ∧ u2.host = u.host := by
  unfold goParse at h ⊢
  by_cases hmem : '#' ∈ p
  · have hcut := cutAt_append_left '#' p targetBlankChars hmem
    have h1 : (cutAt '#' (p ++ targetBlankChars)).1 = (cutAt '#' p).1 := by rw [hcut]
    have h2 : (cutAt '#' (p ++ targetBlankChars)).2
        = (cutAt '#' p).2 ++ targetBlankChars := by rw [hcut]
    rw [h1, h2] at h
    have hne : ((cutAt '#' p).2 ++ targetBlankChars).isEmpty = false := by
      cases hc : (cutAt '#' p).2 with
      | nil => decide
      | cons a l => rfl
    cases hpc : parseCore false (cutAt '#' p).1 with
    | none =>
      rw [hpc] at h
      exact Option.noConfusion h
    | some u0 =>
      rw [hpc] at h
      have h3 : (if ((cutAt '#' p).2 ++ targetBlankChars).isEmpty = true then some u0
          else withFragment u0 ((cutAt '#' p).2 ++ targetBlankChars)) = some u := h
      rw [hne] at h3
      simp only [Bool.false_eq_true, if_false] at h3
      unfold withFragment at h3
      cases hun : unescapeGo ((cutAt '#' p).2 ++ targetBlankChars) Encoding.fragment with
      | none =>
        rw [hun] at h3
        exact Option.noConfusion h3
      | some f =>
        rw [hun] at h3
        have hhost : u.host = u0.host := by rw [← Option.some.inj h3]
        by_cases hq : (cutAt '#' p).2 = []
        · have hiso : ((cutAt '#' p).2).isEmpty = true := by rw [hq]; rfl
          refine ⟨u0, ?_, hhost.symm⟩
          show (if ((cutAt '#' p).2).isEmpty = true then some u0
              else withFragment u0 ((cutAt '#' p).2)) = some u0
          rw [if_pos hiso]
        · obtain ⟨y2, hy2, hf⟩ :=
            unescapeGo_append_target Encoding.fragment (by decide)
              ((cutAt '#' p).2) f hun
          have hiso : ((cutAt '#' p).2).isEmpty = false := by
            cases hc : (cutAt '#' p).2 with
            | nil => exact absurd hc hq
            | cons a l => rfl
          refine ⟨{ u0 with fragment := y2, rawFragment := if escapeGo y2 Encoding.fragment == (cutAt '#' p).2 then [] else (cutAt '#' p).2 }, ?_, hhost.symm⟩
          show (if ((cutAt '#' p).2).isEmpty = true then some u0
              else withFragment u0 ((cutAt '#' p).2)) = some _
          rw [hiso]
          simp only [Bool.false_eq_true, if_false]
          unfold withFragment
          rw [hy2]
  · have hmemT : '#' ∉ p ++ targetBlankChars := by
      intro hc
      cases List.mem_append.mp hc with
      | inl hcc => exact hmem hcc
      | inr hcc => exact absurd hcc (by decide)
    have h1 : (cutAt '#' (p ++ targetBlankChars)).1 = p ++ targetBlankChars := by
      rw [cutAt_of_not_mem '#' _ hmemT]
    have h2 : (cutAt '#' (p ++ targetBlankChars)).2 = [] := by
      rw [cutAt_of_not_mem '#' _ hmemT]
    rw [h1, h2] at h
    cases hpc : parseCore false (p ++ targetBlankChars) with
    | none =>
      rw [hpc] at h
      exact Option.noConfusion h
    | some u0 =>
      rw [hpc] at h
      have h4 : some u0 = some u := h
      have hu : u0 = u := Option.some.inj h4
      have hdu0 : String.mk u0.hostname ∈ validDomains := by rw [hu]; exact hdu
      obtain ⟨u2, hu2, hh⟩ := parseCore_strip p u0 hpc hdu0
      have g1 : (cutAt '#' p).1 = p := by rw [cutAt_of_not_mem '#' p hmem]
      have g2 : (cutAt '#' p).2 = [] := by rw [cutAt_of_not_mem '#' p hmem]
      refine ⟨u2, ?_, ?_⟩
      · rw [g1, g2, hu2]
        rfl
      · rw [hh, hu]

theorem trimSuffix_parse_allowlisted (s : String) (u : GoURL)
    (hp : goParse s.data = some u)
    (hd : String.mk u.hostname ∈ validDomains) :
    ∃ u2, goParse (trimSuffixGo s targetBlankSuffix).data = some u2 ∧
      String.mk u2.hostname ∈ validDomains := by
  unfold trimSuffixGo
  by_cases hs : targetBlankSuffix.data.isSuffixOf s.data = true
  · rw [if_pos hs]
    have hsuf : targetBlankSuffix.data <:+ s.data := by
      rw [List.isSuffixOf_iff_suffix] at hs
      exact hs
    obtain ⟨t, ht⟩ := hsuf
    have hlen : s.data.length - targetBlankSuffix.data.length = t.length := by
      rw [← ht, List.length_append]
      omega
    have htake : s.data.take (s.data.length - targetBlankSuffix.data.length) = t := by
      rw [hlen, ← ht, List.take_left]
    have hpt : goParse (t ++ targetBlankChars) = some u := by
      rw [show targetBlankChars = targetBlankSuffix.data from rfl, ht]
      exact hp
    obtain ⟨u2, hu2, hh⟩ := goParse_strip t u hpt hd
    refine ⟨u2, ?_, ?_⟩
    · show goParse (s.data.take (s.data.length - targetBlankSuffix.data.length))
        = some u2
      rw [htake]
      exact hu2
    · rw [hostname_host_congr u2 u hh]
      exact hd
  · rw [if_neg hs]
    exact ⟨u, hp, hd⟩

theorem hostName_parse_of_getHostName (content hostName : String)
    (hg : getHostNameFromURL content = some hostName)
    (hd : validDomains.contains hostName = true) :
    ∃ u, goParse content.data = some u ∧ String.mk u.hostname ∈ validDomains := by
  unfold getHostNameFromURL at hg
  cases hpu : goParse content.data with
  | none =>
    rw [hpu] at hg
    exact Option.noConfusion hg
  | some u =>
    rw [hpu] at hg
    simp only [Option.map_some'] at hg
    refine ⟨u, rfl, ?_⟩
    rw [Option.some.inj hg]
    exact List.mem_of_elem_eq_true hd

/-- C1: domain filter soundness.  For both variants of cleanURLs (the
suffix-stripping one from src/main.go and the plain one from
src/unnamed/part_000), whenever the filter returns normally every string in
its output parses with url.Parse and the hostname of the parsed URL is a
member of the fixed 4-element allow-list. -/
theorem cleanURLs_domain_filter_sound (urls out : List String) :
    (cleanURLs urls = some out →
      ∀ s ∈ out, ∃ u, goParse s.data = some u ∧
        String.mk u.hostname ∈ validDomains)
    ∧ (Part000.cleanURLs urls = some out →
      ∀ s ∈ out, ∃ u, goParse s.data = some u ∧
        String.mk u.hostname ∈ validDomains) := by
  induction urls generalizing out with
  | nil =>
    constructor
    · intro h s hs
      have hout : ([] : List String) = out := Option.some.inj h
      rw [← hout] at hs
      exact absurd hs (List.not_mem_nil s)
    · intro h s hs
      have hout : ([] : List String) = out := Option.some.inj h
      rw [← hout] at hs
      exact absurd hs (List.not_mem_nil s)
  | cons content rest ih =>
    constructor
    · intro h
      by_cases hv : isUrlValid content = true
      · simp only [cleanURLs, hv, if_true] at h
        cases hg : getHostNameFromURL content with
        | none =>
          rw [hg] at h
          exact Option.noConfusion h
        | some hostName =>
          rw [hg] at h
          have h3 : (if validDomains.contains hostName = true then
              (cleanURLs rest).map (trimSuffixGo content targetBlankSuffix :: ·)
            else cleanURLs rest) = some out := h
          by_cases hd : validDomains.contains hostName = true
          · rw [if_pos hd] at h3
            cases hrec : cleanURLs rest with
            | none =>
              rw [hrec] at h3
              exact Option.noConfusion h3
            | some out0 =>
              rw [hrec] at h3
              simp only [Option.map_some'] at h3
              have hout : trimSuffixGo content targetBlankSuffix :: out0 = out :=
                Option.some.inj h3
              intro s hs
              rw [← hout] at hs
              rcases List.mem_cons.mp hs with hs1 | hs2
              · obtain ⟨u, hpu, hmem⟩ :=
                  hostName_parse_of_getHostName content hostName hg hd
                rw [hs1]
                exact trimSuffix_parse_allowlisted content u hpu hmem
              · exact (ih out0).1 hrec s hs2
          · rw [if_neg hd] at h3
            exact (ih out).1 h3
      · have hv2 : isUrlValid content = false := by
          revert hv
          cases isUrlValid content <;> simp
        simp only [cleanURLs, hv2, Bool.false_eq_true, if_false] at h
        exact (ih out).1 h
    · intro h
      by_cases hv : isUrlValid content = true
      · simp only [Part000.cleanURLs, hv, if_true] at h
        cases hg : getHostNameFromURL content with
        | none =>
          rw [hg] at h
          exact Option.noConfusion h
        | some hostName =>
          rw [hg] at h
          have h3 : (if validDomains.contains hostName = true then
              (Part000.cleanURLs rest).map (content :: ·)
            else Part000.cleanURLs rest) = some out := h
          by_cases hd : validDomains.contains hostName = true
          · rw [if_pos hd] at h3
            cases hrec : Part000.cleanURLs rest with
            | none =>
              rw [hrec] at h3
              exact Option.noConfusion h3
            | some out0 =>
              rw [hrec] at h3
              simp only [Option.map_some'] at h3
              have hout : content :: out0 = out := Option.some.inj h3
              intro s hs
              rw [← hout] at hs
              rcases List.mem_cons.mp hs with hs1 | hs2
              · obtain ⟨u, hpu, hmem⟩ :=
                  hostName_parse_of_getHostName content hostName hg hd
                rw [hs1]
                exact ⟨u, hpu, hmem⟩
              · exact (ih out0).2 hrec s hs2
          · rw [if_neg hd] at h3
            exact (ih out).2 h3
      · have hv2 : isUrlValid content = false := by
          revert hv
          cases isUrlValid content <;> simp
        simp only [Part000.cleanURLs, hv2, Bool.false_eq_true, if_false] at h
        exact (ih out).2 h

/-- Witness for C1: on a concrete run whose output is the stripped string,
the kept string parses and its hostname is allow-listed. -/
theorem cleanURLs_domain_filter_sound_witness :
    ∃ u, goParse ("https://documentcloud.org/a" : String).data = some u ∧
      String.mk u.hostname ∈ validDomains :=
  (cleanURLs_domain_filter_sound
      ["https://documentcloud.org/atarget=&quot;_blank&quot;"]
      ["https://documentcloud.org/a"]).1
    (by decide) "https://documentcloud.org/a" (by decide)
